import Mathlib

/-!
Shallow embedding of the `house` typed document store (a sled-backed object
store with secondary-index queries) together with proofs about its index
maintenance, query matching, ordering and error behaviour.

The embedding mirrors `src/lib.rs` and `src/query.rs`: byte strings are lists
of naturals, a sled tree is an association list whose iteration order is the
byte-lexicographic key order, and the record type is abstract behind a codec
carrying the serialization functions and the `Queryable` capability.
-/

namespace House

/-- Byte strings are modelled as lists of naturals (Rust `Vec<u8>` / `&[u8]`). -/
abbrev Bytes := List Nat

/-- Big-endian 8-byte encoding of a `u64` (Rust `u64::to_be_bytes`,
used by `utils::u64_to_bytes`). -/
def u64_to_bytes (value : Nat) : Bytes :=
  [value >>> 56 % 256, value >>> 48 % 256, value >>> 40 % 256, value >>> 32 % 256,
   value >>> 24 % 256, value >>> 16 % 256, value >>> 8 % 256, value % 256]

/-- Decode big-endian bytes back to a `u64` (Rust `utils::bytes_to_u64`);
the `try_into` to `[u8; 8]` fails unless the slice has length exactly 8. -/
def bytes_to_u64 (value : Bytes) : Option Nat :=
  if value.length = 8 then some (value.foldl (fun acc b => acc * 256 + b) 0) else none

/-- The reserved key head for per-identifier term lists: the bytes of the
Rust constant `query::TERMS_PREFIX`, i.e. of the byte string `__house__/terms/`. -/
def TERMS_PREFIX : Bytes :=
  [95, 95, 104, 111, 117, 115, 101, 95, 95, 47, 116, 101, 114, 109, 115, 47]

/-- Little-endian 8-byte encoding of a `u64`, the length header format used by
the bincode serialization of `Vec<Vec<u8>>` term lists. -/
def u64_to_le_bytes (value : Nat) : Bytes :=
  [value % 256, value >>> 8 % 256, value >>> 16 % 256, value >>> 24 % 256,
   value >>> 32 % 256, value >>> 40 % 256, value >>> 48 % 256, value >>> 56 % 256]

/-- Serialization of a list of byte strings (bincode of `Vec<Vec<u8>>`):
an 8-byte little-endian count, then each item as an 8-byte little-endian
length followed by its bytes. -/
def encList (ts : List Bytes) : Bytes :=
  u64_to_le_bytes ts.length ++ (ts.map (fun t => u64_to_le_bytes t.length ++ t)).flatten

/-- Read an 8-byte little-endian length header from the front of a byte stream. -/
def readLen8 (bs : Bytes) : Option (Nat × Bytes) :=
  match bs with
  | b0 :: b1 :: b2 :: b3 :: b4 :: b5 :: b6 :: b7 :: rest =>
    some (b0 + b1 * 2 ^ 8 + b2 * 2 ^ 16 + b3 * 2 ^ 24 + b4 * 2 ^ 32 + b5 * 2 ^ 40 +
      b6 * 2 ^ 48 + b7 * 2 ^ 56, rest)
  | _ => none

/-- Read a given number of length-headed chunks from a byte stream. -/
def readChunks : Nat → Bytes → Option (List Bytes)
  | 0, _ => some []
  | n + 1, bs =>
    match readLen8 bs with
    | none => none
    | some (len, rest) =>
      if len ≤ rest.length then
        match readChunks n (rest.drop len) with
        | none => none
        | some more => some (rest.take len :: more)
      else none

/-- Deserialization of a list of byte strings (bincode of `Vec<Vec<u8>>`). -/
def decList (bs : Bytes) : Option (List Bytes) :=
  match readLen8 bs with
  | none => none
  | some (n, rest) => readChunks n rest

/-- A query term (`query::Term`): a field name plus raw value bytes. -/
structure Term where
  field : Bytes
  value : Bytes
deriving DecidableEq

/-- Derive the index key of a term for an identifier (`Term::flatten_with_id`):
the field bytes, then the value bytes, then the big-endian identifier bytes. -/
def Term.flatten_with_id (t : Term) (id : Nat) : Bytes :=
  t.field ++ t.value ++ u64_to_bytes id

/-- A sled tree modelled as an association list from byte keys to byte values;
insertion replaces, iteration sorts by the byte-lexicographic key order. -/
abbrev Tree := List (Bytes × Bytes)

/-- Lookup of a key (`sled::Tree::get`). -/
def tget : Tree → Bytes → Option Bytes
  | [], _ => none
  | e :: rest, k => if e.1 = k then some e.2 else tget rest k

/-- Removal of a key (`sled::Batch::remove`). -/
def tremove : Tree → Bytes → Tree
  | [], _ => []
  | e :: rest, k => if e.1 = k then tremove rest k else e :: tremove rest k

/-- Insertion, replacing any previous entry for the key (`sled::Tree::insert`). -/
def tinsert (t : Tree) (k v : Bytes) : Tree :=
  (k, v) :: tremove t k

/-- Byte-lexicographic order on keys, the native ordering of a sled tree. -/
def keyLe : Bytes → Bytes → Bool
  | [], _ => true
  | _ :: _, [] => false
  | x :: xs, y :: ys => if x < y then true else if y < x then false else keyLe xs ys

/-- Insertion into a key-ordered entry list, keeping the order. -/
def orderedIns (e : Bytes × Bytes) : Tree → Tree
  | [] => [e]
  | f :: rest => if keyLe e.1 f.1 then e :: f :: rest else f :: orderedIns e rest

/-- Entries of a tree in ascending key order (sled iterates in key order). -/
def sortTree : Tree → Tree
  | [] => []
  | e :: rest => orderedIns e (sortTree rest)

/-- Keys of a tree extending a given leading byte string, in scan order
(`sled::Tree::scan_prefix(..).keys()`). -/
def prefixScan (t : Tree) (p : Bytes) : List Bytes :=
  ((sortTree t).map (fun e => e.1)).filter (fun k => p.isPrefixOf k)

/-- The serialization codec plus the `Queryable` capability of the record
type: `utils::serialize` and `utils::deserialize` (both fallible) and
`Queryable::query_terms`. -/
structure Codec (T : Type) where
  ser : T → Option Bytes
  deser : Bytes → Option T
  query_terms : T → List Term

/-- An identified record (`Object<T>`). -/
structure Object (T : Type) where
  id : Nat
  inner : T
deriving DecidableEq

/-- Error kinds (`err::Error`). -/
inductive Err where
  | storage
  | serialization
  | custom
deriving DecidableEq

/-- The store: the primary tree, the meta (index) tree, and the database's
monotonic identifier counter backing `Db::generate_id`. -/
structure StoreState where
  tree : Tree
  meta : Tree
  next_id : Nat
deriving DecidableEq

/-- A store over freshly opened empty trees. -/
def emptyStore : StoreState := ⟨[], [], 0⟩

variable {T : Type}

/-- The transaction body of `Store::create`: serialize the record, derive its
index keys, write the primary record, the term-list entry, and one index
marker per derived key. -/
def createTx (c : Codec T) (treeT metaT : Tree) (id : Nat) (inner : T) :
    Except Err (Tree × Tree) :=
  let id_bytes := u64_to_bytes id
  match c.ser inner with
  | none => .error .serialization
  | some serialized_inner =>
    let new_terms := (c.query_terms inner).map (fun t => t.flatten_with_id id)
    let serialized_new_terms := encList new_terms
    let treeT2 := tinsert treeT id_bytes serialized_inner
    let metaT2 := tinsert metaT (TERMS_PREFIX ++ id_bytes) serialized_new_terms
    .ok (treeT2, new_terms.foldl (fun acc term => tinsert acc term []) metaT2)

/-- `Store::create`: draw a fresh identifier from `generate_id`, then run the
transaction; the identifier counter advances even when the transaction aborts,
while the trees change only on commit. -/
def create (c : Codec T) (s : StoreState) (inner : T) : Except Err Nat × StoreState :=
  let id := s.next_id
  match createTx c s.tree s.meta id inner with
  | .error e => (.error e, { s with next_id := id + 1 })
  | .ok (t, m) => (.ok id, { tree := t, meta := m, next_id := id + 1 })

/-- One object's step inside the `Store::update_multi` transaction. The record
is re-serialized (`serialized_inner`) but, exactly as in the source, the result
is never written back to the primary tree; only the meta tree changes: the
term-list entry is replaced, then one batch removes the previous index keys
and inserts the new ones (inserts win on keys present in both). -/
def updateObj (c : Codec T) (metaT : Tree) (o : Object T) : Except Err Tree :=
  let id_bytes := u64_to_bytes o.id
  match c.ser o.inner with
  | none => .error .serialization
  | some _serialized_inner =>
    let new_terms := (c.query_terms o.inner).map (fun t => t.flatten_with_id o.id)
    let serialized_new_terms := encList new_terms
    let prev := tget metaT (TERMS_PREFIX ++ id_bytes)
    let metaT2 := tinsert metaT (TERMS_PREFIX ++ id_bytes) serialized_new_terms
    match prev with
    | none => .ok (new_terms.foldl (fun acc term => tinsert acc term []) metaT2)
    | some serialized_prev_terms =>
      match decList serialized_prev_terms with
      | none => .error .serialization
      | some prev_terms =>
        let metaT3 := prev_terms.foldl (fun acc term => tremove acc term) metaT2
        .ok (new_terms.foldl (fun acc term => tinsert acc term []) metaT3)

/-- The transaction body of `Store::update_multi`, processing objects in order. -/
def updateTx (c : Codec T) (metaT : Tree) : List (Object T) → Except Err Tree
  | [] => .ok metaT
  | o :: rest =>
    match updateObj c metaT o with
    | .error e => .error e
    | .ok metaT2 => updateTx c metaT2 rest

/-- `Store::update_multi`: all objects commit in one transaction, or none. -/
def update_multi (c : Codec T) (s : StoreState) (objects : List (Object T)) :
    Except Err Unit × StoreState :=
  match updateTx c s.meta objects with
  | .error e => (.error e, s)
  | .ok m => (.ok (), { s with meta := m })

/-- `Store::update` delegates to `update_multi` on a one-element slice. -/
def update (c : Codec T) (s : StoreState) (object : Object T) :
    Except Err Unit × StoreState :=
  update_multi c s [object]

/-- `Store::find`: direct primary-table lookup; absence is `Ok(None)` and only
a deserialization failure is an error. -/
def find (c : Codec T) (s : StoreState) (id : Nat) : Except Err (Option (Object T)) :=
  match tget s.tree (u64_to_bytes id) with
  | none => .ok none
  | some bytes =>
    match c.deser bytes with
    | none => .error .serialization
    | some inner => .ok (some ⟨id, inner⟩)

/-- The fold underlying `Store::all` over the primary entries in key order. -/
def allGo (c : Codec T) : Tree → Except Err (List (Object T))
  | [] => .ok []
  | (k, v) :: rest =>
    match bytes_to_u64 k with
    | none => .error .custom
    | some id =>
      match c.deser v with
      | none => .error .serialization
      | some inner =>
        match allGo c rest with
        | .error e => .error e
        | .ok objs => .ok (⟨id, inner⟩ :: objs)

/-- `Store::all`: full scan of the primary tree in its native key order,
decoding each key as an identifier and each value as a record. -/
def all (c : Codec T) (s : StoreState) : Except Err (List (Object T)) :=
  allGo c (sortTree s.tree)

/-- `StrEquals(field, value)::matching_ids`: scan the meta tree for keys
extending the concatenation of the field and value bytes and decode the
remainder of each matching key as an identifier, silently skipping keys
whose remainder fails to decode. -/
def matching_ids (s : StoreState) (f v : Bytes) : List Nat :=
  (prefixScan s.meta (f ++ v)).filterMap (fun k => bytes_to_u64 (k.drop (f ++ v).length))

/-- `Results::first`: resolve the first matched identifier, if any. -/
def results_first (c : Codec T) (s : StoreState) : List Nat → Except Err (Option (Object T))
  | [] => .ok none
  | id :: _ => find c s id

/-- `Results::all`: resolve every matched identifier through `find`, keeping
the objects that resolve and silently skipping identifiers that do not. -/
def results_all (c : Codec T) (s : StoreState) : List Nat → Except Err (List (Object T))
  | [] => .ok []
  | id :: rest =>
    match find c s id with
    | .error e => .error e
    | .ok none => results_all c s rest
    | .ok (some obj) =>
      match results_all c s rest with
      | .error e => .error e
      | .ok objs => .ok (obj :: objs)

/-- The pure resolution underlying `find`: the object an identifier currently
denotes, or none when the identifier is absent or its record undecodable. -/
def resolveId (c : Codec T) (s : StoreState) (id : Nat) : Option (Object T) :=
  match tget s.tree (u64_to_bytes id) with
  | none => none
  | some bytes => (c.deser bytes).map (fun inner => ⟨id, inner⟩)

/-- Specification-side history: for each identifier, the term list of the most
recently written record. -/
abbrev Model := List (Nat × List Term)

/-- Lookup in the history. -/
def mget : Model → Nat → Option (List Term)
  | [], _ => none
  | e :: rest, id => if e.1 = id then some e.2 else mget rest id

/-- Removal from the history. -/
def mrem : Model → Nat → Model
  | [], _ => []
  | e :: rest, id => if e.1 = id then mrem rest id else e :: mrem rest id

/-- Overwrite one identifier's entry in the history. -/
def mset (m : Model) (id : Nat) (ts : List Term) : Model :=
  (id, ts) :: mrem m id

/-- Sanity conditions on a term: its key does not collide with the reserved
term-list keys, and its sizes fit the 8-byte length headers. -/
def goodTerm (t : Term) : Prop :=
  t.field ++ t.value ≠ TERMS_PREFIX ∧ t.field.length + t.value.length + 8 < 2 ^ 64

instance (t : Term) : Decidable (goodTerm t) :=
  inferInstanceAs
    (Decidable (t.field ++ t.value ≠ TERMS_PREFIX ∧
      t.field.length + t.value.length + 8 < 2 ^ 64))

/-- Sanity conditions on a record's term list. -/
def goodTerms (ts : List Term) : Prop :=
  ts.length < 2 ^ 64 ∧ ∀ t ∈ ts, goodTerm t

instance (ts : List Term) : Decidable (goodTerms ts) :=
  inferInstanceAs (Decidable (ts.length < 2 ^ 64 ∧ ∀ t ∈ ts, goodTerm t))

/-- Index invariant tying the meta tree to the history: each live identifier's
term-list entry holds the encoding of its current index keys, each current
index key is present as a marker entry, and no other key is present. -/
def MetaInv (metaT : Tree) (m : Model) : Prop :=
  (∀ id ts, mget m id = some ts →
    tget metaT (TERMS_PREFIX ++ u64_to_bytes id) =
      some (encList (ts.map (fun t => t.flatten_with_id id)))) ∧
  (∀ id ts, mget m id = some ts → ∀ t ∈ ts, tget metaT (t.flatten_with_id id) = some []) ∧
  (∀ k, (tget metaT k).isSome →
    (∃ id, (mget m id).isSome ∧ k = TERMS_PREFIX ++ u64_to_bytes id) ∨
    (∃ id ts, mget m id = some ts ∧ ∃ t ∈ ts, k = t.flatten_with_id id))

/-- Full store invariant: the identifier counter is in `u64` range, exactly
the identifiers below it are live, their stored term lists are sane, and the
meta tree matches the history. -/
def Inv (s : StoreState) (m : Model) : Prop :=
  s.next_id ≤ 2 ^ 64 ∧
  (∀ id, (mget m id).isSome ↔ id < s.next_id) ∧
  (∀ id ts, mget m id = some ts → goodTerms ts) ∧
  MetaInv s.meta m

/-- Well-disciplined executions of the store: finite sequences of successful
`create` and `update_multi` calls starting from an empty store, where every
record's terms are sane and every update targets an identifier the store has
already assigned. Alongside the machine state, the relation tracks for each
identifier the term list of the most recently written record. -/
inductive Exec (c : Codec T) : StoreState → Model → Prop where
  | init : Exec c emptyStore []
  | step_create {s m r id s'} : Exec c s m → s.next_id < 2 ^ 64 →
      goodTerms (c.query_terms r) →
      create c s r = (.ok id, s') →
      Exec c s' (mset m id (c.query_terms r))
  | step_update {s m objs s'} : Exec c s m →
      (∀ o ∈ objs, o.id < s.next_id ∧ goodTerms (c.query_terms o.inner)) →
      update_multi c s objs = (.ok (), s') →
      Exec c s' (objs.foldl (fun acc o => mset acc o.id (c.query_terms o.inner)) m)

/-- A record type with a total, injective codec used by concrete scenarios: a
boolean whose term list differs per value (old title vs new title). -/
def boolCodec : Codec Bool :=
  { ser := fun b => some [if b then 1 else 0]
    deser := fun bs => if bs = [1] then some true else if bs = [0] then some false else none
    query_terms := fun b =>
      if b then [⟨[97, 98], [100]⟩, ⟨[97], [98, 99]⟩] else [⟨[97, 98], [99]⟩] }

/-- Concrete scenario state: one created record (the false record). -/
def exS1 : StoreState := (create boolCodec emptyStore false).2

/-- Concrete scenario state: the record then updated to the true record. -/
def exS2 : StoreState := (update_multi boolCodec exS1 [⟨0, true⟩]).2

/-- A codec like boolCodec whose true record changes the indexed field's value
without any colliding field and value split. -/
def plainCodec : Codec Bool :=
  { ser := fun b => some [if b then 1 else 0]
    deser := fun bs => if bs = [1] then some true else if bs = [0] then some false else none
    query_terms := fun b => if b then [⟨[97, 98], [100]⟩] else [⟨[97, 98], [99]⟩] }

/-- Plain scenario state: one created record (the false record). -/
def plS1 : StoreState := (create plainCodec emptyStore false).2

/-- Plain scenario state: the record then updated to the true record. -/
def plS2 : StoreState := (update_multi plainCodec plS1 [⟨0, true⟩]).2

/-- A codec whose serializer fails on the true record, to exhibit aborted
transactions. -/
def failCodec : Codec Bool :=
  { ser := fun b => if b then none else some [0]
    deser := fun bs => if bs = [0] then some false else none
    query_terms := fun _ => [⟨[102], [48]⟩] }

/-- Aborted-transaction scenario state: one created (false) record. -/
def flS1 : StoreState := (create failCodec emptyStore false).2

/-- A hand-built primary table with two decodable entries listed out of key
order, for the ordered-scan scenario. -/
def ordState : StoreState :=
  ⟨[(u64_to_bytes 5, [1]), (u64_to_bytes 2, [0])], [], 6⟩

/-! Identifier encoding lemmas. -/

theorem u64_to_bytes_length (n : Nat) : (u64_to_bytes n).length = 8 := rfl

theorem u64_to_bytes_lt (n : Nat) : ∀ b ∈ u64_to_bytes n, b < 256 := by
  intro b hb
  simp only [u64_to_bytes, List.mem_cons, List.not_mem_nil, or_false] at hb
  rcases hb with h | h | h | h | h | h | h | h <;> omega

theorem u64_foldl (n : Nat) (h : n < 2 ^ 64) :
    (u64_to_bytes n).foldl (fun acc b => acc * 256 + b) 0 = n := by
  simp only [u64_to_bytes, List.foldl_cons, List.foldl_nil, Nat.shiftRight_eq_div_pow]
  omega

theorem bytes_to_u64_u64_to_bytes (n : Nat) (h : n < 2 ^ 64) :
    bytes_to_u64 (u64_to_bytes n) = some n := by
  rw [bytes_to_u64, if_pos (u64_to_bytes_length n), u64_foldl n h]

theorem u64_to_bytes_inj {a b : Nat} (ha : a < 2 ^ 64) (hb : b < 2 ^ 64)
    (h : u64_to_bytes a = u64_to_bytes b) : a = b := by
  have h1 := bytes_to_u64_u64_to_bytes a ha
  rw [h, bytes_to_u64_u64_to_bytes b hb] at h1
  exact (Option.some.inj h1).symm

theorem bytes_to_u64_isSome {bs : Bytes} : (bytes_to_u64 bs).isSome ↔ bs.length = 8 := by
  by_cases h : bs.length = 8 <;> simp [bytes_to_u64, h]

theorem bytes_to_u64_length {bs : Bytes} {n : Nat} (h : bytes_to_u64 bs = some n) :
    bs.length = 8 := by
  by_cases hl : bs.length = 8
  · exact hl
  · rw [bytes_to_u64, if_neg hl] at h
    cases h

/-! Index-key shape lemmas. -/

theorem append_u64_inj {xs ys : Bytes} {a b : Nat}
    (h : xs ++ u64_to_bytes a = ys ++ u64_to_bytes b) :
    xs = ys ∧ u64_to_bytes a = u64_to_bytes b :=
  List.append_inj' h ((u64_to_bytes_length a).trans (u64_to_bytes_length b).symm)

theorem flatten_eq_append (t : Term) (id : Nat) :
    t.flatten_with_id id = (t.field ++ t.value) ++ u64_to_bytes id := by
  rw [Term.flatten_with_id, List.append_assoc]

theorem flatten_length (t : Term) (id : Nat) :
    (t.flatten_with_id id).length = t.field.length + t.value.length + 8 := by
  simp only [flatten_eq_append, List.length_append, u64_to_bytes_length]

theorem flatten_ne_termsKey {t : Term} (hg : t.field ++ t.value ≠ TERMS_PREFIX)
    {id id' : Nat} : t.flatten_with_id id ≠ TERMS_PREFIX ++ u64_to_bytes id' := by
  intro h
  rw [flatten_eq_append] at h
  exact hg (append_u64_inj h).1

theorem flatten_inj_id {t t' : Term} {id id' : Nat} (ha : id < 2 ^ 64) (hb : id' < 2 ^ 64)
    (h : t.flatten_with_id id = t'.flatten_with_id id') : id = id' := by
  rw [flatten_eq_append, flatten_eq_append] at h
  exact u64_to_bytes_inj ha hb (append_u64_inj h).2

theorem termsKey_inj {id id' : Nat} (ha : id < 2 ^ 64) (hb : id' < 2 ^ 64)
    (h : TERMS_PREFIX ++ u64_to_bytes id = TERMS_PREFIX ++ u64_to_bytes id') : id = id' :=
  u64_to_bytes_inj ha hb (append_u64_inj h).2

/-! Tree lookup lemmas. -/

theorem tget_tremove (t : Tree) (k k' : Bytes) :
    tget (tremove t k) k' = if k' = k then none else tget t k' := by
  induction t with
  | nil => simp [tremove, tget]
  | cons e rest ih =>
    simp only [tremove, tget]
    by_cases h1 : e.1 = k
    · rw [if_pos h1, ih]
      by_cases h2 : k' = k
      · simp [h2]
      · have h3 : ¬ e.1 = k' := by rw [h1]; exact fun hh => h2 hh.symm
        simp [h2, tget, h3]
    · rw [if_neg h1]
      simp only [tget]
      by_cases h3 : e.1 = k'
      · have h2 : ¬ k' = k := by intro hh; rw [hh] at h3; exact h1 h3
        simp [h2, h3]
      · simp [h3, ih]

theorem tget_tinsert (t : Tree) (k v k' : Bytes) :
    tget (tinsert t k v) k' = if k' = k then some v else tget t k' := by
  simp only [tinsert, tget]
  by_cases h : k' = k
  · simp [h]
  · have h2 : ¬ k = k' := fun hh => h hh.symm
    simp [h, h2, tget_tremove]

theorem tget_foldl_tinsert (ks : List Bytes) (t : Tree) (k' : Bytes) :
    tget (ks.foldl (fun acc term => tinsert acc term []) t) k' =
      if k' ∈ ks then some [] else tget t k' := by
  induction ks generalizing t with
  | nil => simp
  | cons k ks ih =>
    simp only [List.foldl_cons, ih, tget_tinsert]
    by_cases h1 : k' ∈ ks
    · simp [h1]
    · by_cases h2 : k' = k <;> simp [h1, h2]

theorem tget_foldl_tremove (ks : List Bytes) (t : Tree) (k' : Bytes) :
    tget (ks.foldl (fun acc term => tremove acc term) t) k' =
      if k' ∈ ks then none else tget t k' := by
  induction ks generalizing t with
  | nil => simp
  | cons k ks ih =>
    simp only [List.foldl_cons, ih, tget_tremove]
    by_cases h1 : k' ∈ ks
    · simp [h1]
    · by_cases h2 : k' = k <;> simp [h1, h2]

theorem tget_isSome_iff (t : Tree) (k : Bytes) :
    (tget t k).isSome ↔ k ∈ t.map (fun e => e.1) := by
  induction t with
  | nil => simp [tget]
  | cons e rest ih =>
    simp only [tget, List.map_cons, List.mem_cons]
    by_cases h : e.1 = k
    · simp [h]
    · have h2 : ¬ k = e.1 := fun hh => h hh.symm
      simp [h, h2, ih]

/-! History lookup lemmas. -/

theorem mget_mrem (m : Model) (id id' : Nat) :
    mget (mrem m id) id' = if id' = id then none else mget m id' := by
  induction m with
  | nil => simp [mrem, mget]
  | cons e rest ih =>
    simp only [mrem, mget]
    by_cases h1 : e.1 = id
    · rw [if_pos h1, ih]
      by_cases h2 : id' = id
      · simp [h2]
      · have h3 : ¬ e.1 = id' := by rw [h1]; exact fun hh => h2 hh.symm
        simp [h2, mget, h3]
    · rw [if_neg h1]
      simp only [mget]
      by_cases h3 : e.1 = id'
      · have h2 : ¬ id' = id := by intro hh; rw [hh] at h3; exact h1 h3
        simp [h2, h3]
      · simp [h3, ih]

theorem mget_mset (m : Model) (id : Nat) (ts : List Term) (id' : Nat) :
    mget (mset m id ts) id' = if id' = id then some ts else mget m id' := by
  simp only [mset, mget]
  by_cases h : id' = id
  · simp [h]
  · have h2 : ¬ id = id' := fun hh => h hh.symm
    simp [h, h2, mget_mrem]

/-! Term-list serialization round trip. -/

theorem readLen8_le (n : Nat) (rest : Bytes) (h : n < 2 ^ 64) :
    readLen8 (u64_to_le_bytes n ++ rest) = some (n, rest) := by
  simp only [u64_to_le_bytes, List.cons_append, List.nil_append, readLen8,
    Nat.shiftRight_eq_div_pow, Option.some.injEq, Prod.mk.injEq]
  exact ⟨by omega, trivial⟩

theorem readChunks_enc (ts : List Bytes) :
    ∀ rest : Bytes, (∀ t ∈ ts, t.length < 2 ^ 64) →
      readChunks ts.length ((ts.map (fun t => u64_to_le_bytes t.length ++ t)).flatten ++ rest) =
        some ts := by
  induction ts with
  | nil => intro rest h; rfl
  | cons t ts ih =>
    intro rest h
    have ht : t.length < 2 ^ 64 := h t (List.mem_cons_self t ts)
    simp only [List.map_cons, List.flatten_cons, List.length_cons, List.append_assoc]
    have hle : t.length ≤ (t ++ ((ts.map (fun t => u64_to_le_bytes t.length ++ t)).flatten ++ rest)).length := by
      simp [List.length_append]
    have htake : (t ++ ((ts.map (fun t => u64_to_le_bytes t.length ++ t)).flatten ++ rest)).take t.length = t :=
      List.take_left t _
    have hdrop : (t ++ ((ts.map (fun t => u64_to_le_bytes t.length ++ t)).flatten ++ rest)).drop t.length =
        (ts.map (fun t => u64_to_le_bytes t.length ++ t)).flatten ++ rest :=
      List.drop_left t _
    simp only [readChunks, readLen8_le _ _ ht, if_pos hle, hdrop,
      ih rest (fun x hx => h x (List.mem_cons_of_mem t hx)), htake]

theorem decList_encList {ts : List Bytes} (hlen : ts.length < 2 ^ 64)
    (h : ∀ t ∈ ts, t.length < 2 ^ 64) : decList (encList ts) = some ts := by
  have hc := readChunks_enc ts [] h
  simp only [List.append_nil] at hc
  simp only [decList, encList, readLen8_le _ _ hlen, hc]

/-! Byte-lexicographic order lemmas. -/

theorem keyLe_total (a : Bytes) : ∀ b : Bytes, keyLe a b = true ∨ keyLe b a = true := by
  induction a with
  | nil => intro b; left; rfl
  | cons x xs ih =>
    intro b
    cases b with
    | nil => right; rfl
    | cons y ys =>
      rcases Nat.lt_trichotomy x y with h | h | h
      · left; simp [keyLe, h]
      · subst h
        rcases ih ys with h2 | h2
        · left; simp [keyLe, h2]
        · right; simp [keyLe, h2]
      · right; simp [keyLe, h]

theorem keyLe_trans {a : Bytes} : ∀ {b c : Bytes},
    keyLe a b = true → keyLe b c = true → keyLe a c = true := by
  induction a with
  | nil => intro b c _ _; rfl
  | cons x xs ih =>
    intro b c h1 h2
    cases b with
    | nil => simp [keyLe] at h1
    | cons y ys =>
      cases c with
      | nil => simp [keyLe] at h2
      | cons z zs =>
        simp only [keyLe] at h1 h2 ⊢
        rcases Nat.lt_trichotomy x y with hxy | hxy | hxy
        · rcases Nat.lt_trichotomy y z with hyz | hyz | hyz
          · simp [lt_trans hxy hyz]
          · subst hyz; simp [hxy]
          · rw [if_neg (Nat.lt_asymm hyz), if_pos hyz] at h2
            exact absurd h2 (by simp)
        · subst hxy
          rcases Nat.lt_trichotomy x z with hxz | hxz | hxz
          · simp [hxz]
          · subst hxz
            rw [if_neg (lt_irrefl x), if_neg (lt_irrefl x)] at h1
            rw [if_neg (lt_irrefl x), if_neg (lt_irrefl x)] at h2
            rw [if_neg (lt_irrefl x), if_neg (lt_irrefl x)]
            exact ih h1 h2
          · rw [if_neg (Nat.lt_asymm hxz), if_pos hxz] at h2
            exact absurd h2 (by simp)
        · rw [if_neg (Nat.lt_asymm hxy), if_pos hxy] at h1
          exact absurd h1 (by simp)

theorem foldl_acc (xs : Bytes) : ∀ acc : Nat,
    xs.foldl (fun acc b => acc * 256 + b) acc
      = acc * 256 ^ xs.length + xs.foldl (fun acc b => acc * 256 + b) 0 := by
  induction xs with
  | nil => intro acc; simp
  | cons x xs ih =>
    intro acc
    simp only [List.foldl_cons, List.length_cons]
    rw [ih (acc * 256 + x), ih (0 * 256 + x)]
    ring

theorem foldl_lt (xs : Bytes) (h : ∀ b ∈ xs, b < 256) :
    xs.foldl (fun acc b => acc * 256 + b) 0 < 256 ^ xs.length := by
  induction xs with
  | nil => simp
  | cons x xs ih =>
    simp only [List.foldl_cons, List.length_cons]
    rw [foldl_acc xs (0 * 256 + x)]
    have hx : x < 256 := h x (List.mem_cons_self _ _)
    have hr := ih (fun b hb => h b (List.mem_cons_of_mem _ hb))
    calc (0 * 256 + x) * 256 ^ xs.length + xs.foldl (fun acc b => acc * 256 + b) 0
        < (0 * 256 + x) * 256 ^ xs.length + 256 ^ xs.length := Nat.add_lt_add_left hr _
      _ = (x + 1) * 256 ^ xs.length := by ring
      _ ≤ 256 * 256 ^ xs.length := Nat.mul_le_mul_right _ (by omega)
      _ = 256 ^ (xs.length + 1) := by ring

theorem keyLe_foldl {xs : Bytes} : ∀ {ys : Bytes}, xs.length = ys.length →
    (∀ b ∈ xs, b < 256) → (∀ b ∈ ys, b < 256) → keyLe xs ys = true →
    xs.foldl (fun acc b => acc * 256 + b) 0 ≤ ys.foldl (fun acc b => acc * 256 + b) 0 := by
  induction xs with
  | nil =>
    intro ys hlen _ _ _
    cases ys with
    | nil => exact le_refl _
    | cons y ys => simp at hlen
  | cons x xs ih =>
    intro ys hlen hx hy hle
    cases ys with
    | nil => simp at hlen
    | cons y ys =>
      simp only [List.length_cons] at hlen
      have hlen' : xs.length = ys.length := by omega
      have hFx := foldl_lt xs (fun b hb => hx b (List.mem_cons_of_mem _ hb))
      have hFy := foldl_lt ys (fun b hb => hy b (List.mem_cons_of_mem _ hb))
      simp only [List.foldl_cons]
      rw [foldl_acc xs (0 * 256 + x), foldl_acc ys (0 * 256 + y)]
      simp only [Nat.zero_mul, Nat.zero_add]
      rw [hlen'] at hFx
      rw [hlen']
      simp only [keyLe] at hle
      by_cases hxy : x < y
      · refine le_of_lt ?_
        calc x * 256 ^ ys.length + xs.foldl (fun acc b => acc * 256 + b) 0
            < x * 256 ^ ys.length + 256 ^ ys.length := Nat.add_lt_add_left hFx _
          _ = (x + 1) * 256 ^ ys.length := by ring
          _ ≤ y * 256 ^ ys.length := Nat.mul_le_mul_right _ (by omega)
          _ ≤ y * 256 ^ ys.length + ys.foldl (fun acc b => acc * 256 + b) 0 :=
            Nat.le_add_right _ _
      · by_cases hyx : y < x
        · rw [if_neg hxy, if_pos hyx] at hle
          exact absurd hle (by simp)
        · have hxyeq : x = y := by omega
          subst hxyeq
          rw [if_neg hxy, if_neg hyx] at hle
          have hrec := ih hlen' (fun b hb => hx b (List.mem_cons_of_mem _ hb))
            (fun b hb => hy b (List.mem_cons_of_mem _ hb)) hle
          exact Nat.add_le_add_left hrec _

theorem keyLe_u64 {a b : Nat} (ha : a < 2 ^ 64) (hb : b < 2 ^ 64)
    (h : keyLe (u64_to_bytes a) (u64_to_bytes b) = true) : a ≤ b := by
  have hm := keyLe_foldl ((u64_to_bytes_length a).trans (u64_to_bytes_length b).symm)
    (u64_to_bytes_lt a) (u64_to_bytes_lt b) h
  rw [u64_foldl a ha, u64_foldl b hb] at hm
  exact hm

/-! Sorting lemmas for tree iteration. -/

theorem perm_orderedIns (e : Bytes × Bytes) (l : Tree) : (orderedIns e l).Perm (e :: l) := by
  induction l with
  | nil => exact List.Perm.refl _
  | cons f rest ih =>
    rw [orderedIns]
    by_cases h : keyLe e.1 f.1
    · rw [if_pos h]
    · rw [if_neg h]
      exact (ih.cons f).trans (List.Perm.swap e f rest)

theorem perm_sortTree (t : Tree) : (sortTree t).Perm t := by
  induction t with
  | nil => exact List.Perm.refl _
  | cons e rest ih =>
    exact (perm_orderedIns e (sortTree rest)).trans (ih.cons e)

theorem mem_sortTree {t : Tree} {e : Bytes × Bytes} : e ∈ sortTree t ↔ e ∈ t :=
  (perm_sortTree t).mem_iff

theorem pairwise_orderedIns {e : Bytes × Bytes} {l : Tree}
    (hp : List.Pairwise (fun a b : Bytes × Bytes => keyLe a.1 b.1 = true) l) :
    List.Pairwise (fun a b : Bytes × Bytes => keyLe a.1 b.1 = true) (orderedIns e l) := by
  induction l with
  | nil => exact List.pairwise_singleton _ _
  | cons f rest ih =>
    rcases List.pairwise_cons.mp hp with ⟨hhead, htail⟩
    rw [orderedIns]
    by_cases h : keyLe e.1 f.1
    · rw [if_pos h]
      refine List.Pairwise.cons ?_ hp
      intro x hx
      rcases List.mem_cons.mp hx with rfl | hx2
      · exact h
      · exact keyLe_trans h (hhead x hx2)
    · rw [if_neg h]
      have hfe : keyLe f.1 e.1 = true := by
        rcases keyLe_total e.1 f.1 with h2 | h2
        · exact absurd h2 h
        · exact h2
      refine List.Pairwise.cons ?_ (ih htail)
      intro x hx
      rcases (perm_orderedIns e rest).mem_iff.mp hx with hx2
      rcases List.mem_cons.mp hx2 with rfl | hx3
      · exact hfe
      · exact hhead x hx3

theorem sorted_sortTree (t : Tree) :
    List.Pairwise (fun a b : Bytes × Bytes => keyLe a.1 b.1 = true) (sortTree t) := by
  induction t with
  | nil => exact List.Pairwise.nil
  | cons e rest ih => exact pairwise_orderedIns ih

/-! Forall₂ helpers. -/

theorem forall2_mem_right {α β : Type _} {R : α → β → Prop} :
    ∀ {l1 : List α} {l2 : List β}, List.Forall₂ R l1 l2 → ∀ {b}, b ∈ l2 → ∃ a ∈ l1, R a b := by
  intro l1 l2 h
  induction h with
  | nil => intro b hb; cases hb
  | cons hR hF ih =>
    intro b hb
    rcases List.mem_cons.mp hb with rfl | hb2
    · exact ⟨_, List.mem_cons_self _ _, hR⟩
    · obtain ⟨a, ha, hRa⟩ := ih hb2
      exact ⟨a, List.mem_cons_of_mem _ ha, hRa⟩

theorem forall2_mem_left {α β : Type _} {R : α → β → Prop} :
    ∀ {l1 : List α} {l2 : List β}, List.Forall₂ R l1 l2 → ∀ {a}, a ∈ l1 → ∃ b ∈ l2, R a b := by
  intro l1 l2 h
  induction h with
  | nil => intro a ha; cases ha
  | cons hR hF ih =>
    intro a ha
    rcases List.mem_cons.mp ha with rfl | ha2
    · exact ⟨_, List.mem_cons_self _ _, hR⟩
    · obtain ⟨b, hb, hRb⟩ := ih ha2
      exact ⟨b, List.mem_cons_of_mem _ hb, hRb⟩

theorem forall2_pairwise {α β : Type _} {R : α → β → Prop} {Q : α → α → Prop} {S : β → β → Prop}
    (himp : ∀ a b x y, R a x → R b y → Q a b → S x y) :
    ∀ {l1 : List α} {l2 : List β}, List.Forall₂ R l1 l2 →
      List.Pairwise Q l1 → List.Pairwise S l2 := by
  intro l1 l2 h
  induction h with
  | nil => intro _; exact List.Pairwise.nil
  | cons hR hF ih =>
    intro hp
    rcases List.pairwise_cons.mp hp with ⟨hhead, htail⟩
    refine List.Pairwise.cons ?_ (ih htail)
    intro y hy
    obtain ⟨a, ha, hRa⟩ := forall2_mem_right hF hy
    exact himp _ _ _ _ hR hRa (hhead a ha)

/-! Query-scan membership lemmas. -/

theorem mem_prefixScan {t : Tree} {p k : Bytes} :
    k ∈ prefixScan t p ↔ (tget t k).isSome ∧ p.isPrefixOf k = true := by
  rw [prefixScan, List.mem_filter, ((perm_sortTree t).map (fun e => e.1)).mem_iff,
    ← tget_isSome_iff]

theorem mem_matching_ids {s : StoreState} {f v : Bytes} {id0 : Nat} :
    id0 ∈ matching_ids s f v ↔
      ∃ k, (tget s.meta k).isSome ∧ (f ++ v).isPrefixOf k = true ∧
        bytes_to_u64 (k.drop (f ++ v).length) = some id0 := by
  rw [matching_ids, List.mem_filterMap]
  constructor
  · rintro ⟨k, hk, hdec⟩
    rcases mem_prefixScan.mp hk with ⟨hsome, hpre⟩
    exact ⟨k, hsome, hpre, hdec⟩
  · rintro ⟨k, hsome, hpre, hdec⟩
    exact ⟨k, mem_prefixScan.mpr ⟨hsome, hpre⟩, hdec⟩

theorem matching_ids_inv {s : StoreState} {m : Model} (hinv : Inv s m)
    {f v : Bytes} (hq : f ++ v ≠ TERMS_PREFIX) (id0 : Nat) :
    id0 ∈ matching_ids s f v ↔
      ∃ ts, mget m id0 = some ts ∧ ∃ t ∈ ts, t.field ++ t.value = f ++ v := by
  obtain ⟨hnid, hdom, hgood, hMI⟩ := hinv
  obtain ⟨hTL, hMK, hSup⟩ := hMI
  constructor
  · intro hmem
    obtain ⟨k, hsome, hpre, hdec⟩ := mem_matching_ids.mp hmem
    obtain ⟨sfx, rfl⟩ := List.isPrefixOf_iff_prefix.mp hpre
    rw [List.drop_left] at hdec
    have hlen : sfx.length = 8 := bytes_to_u64_length hdec
    rcases hSup _ hsome with ⟨id1, hs1, hk1⟩ | ⟨id1, ts1, hm1, t, ht, hk1⟩
    · exact absurd (List.append_inj' hk1 (hlen.trans (u64_to_bytes_length id1).symm)).1 hq
    · rw [flatten_eq_append] at hk1
      obtain ⟨hfv, hsfx⟩ := List.append_inj' hk1 (hlen.trans (u64_to_bytes_length id1).symm)
      have hid1 : id1 < 2 ^ 64 := lt_of_lt_of_le ((hdom id1).mp (by rw [hm1]; rfl)) hnid
      rw [hsfx, bytes_to_u64_u64_to_bytes id1 hid1] at hdec
      obtain rfl : id1 = id0 := Option.some.inj hdec
      exact ⟨ts1, hm1, t, ht, hfv.symm⟩
  · rintro ⟨ts, hm, t, ht, hfv⟩
    have hid0 : id0 < 2 ^ 64 := lt_of_lt_of_le ((hdom id0).mp (by rw [hm]; rfl)) hnid
    refine mem_matching_ids.mpr ⟨t.flatten_with_id id0, ?_, ?_, ?_⟩
    · rw [hMK id0 ts hm t ht]; rfl
    · rw [flatten_eq_append, hfv]
      exact List.isPrefixOf_iff_prefix.mpr ⟨u64_to_bytes id0, rfl⟩
    · rw [flatten_eq_append, hfv, List.drop_left]
      exact bytes_to_u64_u64_to_bytes id0 hid0

/-! Invariant preservation. -/

theorem metaInv_create {metaT : Tree} {m : Model} {nid : Nat} {ts : List Term}
    (hMI : MetaInv metaT m)
    (hdom : ∀ id, (mget m id).isSome → id < nid)
    (hgoodm : ∀ id l, mget m id = some l → goodTerms l)
    (hnid : nid < 2 ^ 64)
    (hg : goodTerms ts) :
    MetaInv
      ((ts.map (fun t => t.flatten_with_id nid)).foldl (fun acc term => tinsert acc term [])
        (tinsert metaT (TERMS_PREFIX ++ u64_to_bytes nid)
          (encList (ts.map (fun t => t.flatten_with_id nid)))))
      (mset m nid ts) := by
  obtain ⟨hTL, hMK, hSup⟩ := hMI
  have hE : ∀ k', tget
      ((ts.map (fun t => t.flatten_with_id nid)).foldl (fun acc term => tinsert acc term [])
        (tinsert metaT (TERMS_PREFIX ++ u64_to_bytes nid)
          (encList (ts.map (fun t => t.flatten_with_id nid))))) k' =
      if k' ∈ ts.map (fun t => t.flatten_with_id nid) then some []
      else if k' = TERMS_PREFIX ++ u64_to_bytes nid then
        some (encList (ts.map (fun t => t.flatten_with_id nid)))
      else tget metaT k' := by
    intro k'
    rw [tget_foldl_tinsert, tget_tinsert]
  have hA : ∀ id'', TERMS_PREFIX ++ u64_to_bytes id'' ∉ ts.map (fun t => t.flatten_with_id nid) := by
    intro id'' hmem
    obtain ⟨t, ht, hkey⟩ := List.mem_map.mp hmem
    exact flatten_ne_termsKey (hg.2 t ht).1 hkey
  refine ⟨?_, ?_, ?_⟩
  · intro id ts' hmg
    rw [mget_mset] at hmg
    by_cases hid : id = nid
    · subst hid
      rw [if_pos rfl] at hmg
      obtain rfl : ts = ts' := Option.some.inj hmg
      rw [hE, if_neg (hA id), if_pos rfl]
    · rw [if_neg hid] at hmg
      have hidlt : id < nid := hdom id (by rw [hmg]; rfl)
      rw [hE, if_neg (hA id),
        if_neg (fun heq => hid (termsKey_inj (lt_trans hidlt hnid) hnid heq))]
      exact hTL id ts' hmg
  · intro id ts' hmg t ht
    rw [mget_mset] at hmg
    by_cases hid : id = nid
    · subst hid
      rw [if_pos rfl] at hmg
      obtain rfl : ts = ts' := Option.some.inj hmg
      rw [hE, if_pos (List.mem_map.mpr ⟨t, ht, rfl⟩)]
    · rw [if_neg hid] at hmg
      have hidlt : id < nid := hdom id (by rw [hmg]; rfl)
      have hid64 : id < 2 ^ 64 := lt_trans hidlt hnid
      have hmem : t.flatten_with_id id ∉ ts.map (fun t => t.flatten_with_id nid) := by
        intro hmem
        obtain ⟨t', ht', hkey⟩ := List.mem_map.mp hmem
        exact hid ((flatten_inj_id hnid hid64 hkey).symm)
      have hne : t.flatten_with_id id ≠ TERMS_PREFIX ++ u64_to_bytes nid :=
        flatten_ne_termsKey ((hgoodm id ts' hmg).2 t ht).1
      rw [hE, if_neg hmem, if_neg hne]
      exact hMK id ts' hmg t ht
  · intro k hk
    rw [hE] at hk
    by_cases h1 : k ∈ ts.map (fun t => t.flatten_with_id nid)
    · obtain ⟨t, ht, rfl⟩ := List.mem_map.mp h1
      right
      exact ⟨nid, ts, by rw [mget_mset, if_pos rfl], t, ht, rfl⟩
    · rw [if_neg h1] at hk
      by_cases h2 : k = TERMS_PREFIX ++ u64_to_bytes nid
      · left
        exact ⟨nid, by rw [mget_mset, if_pos rfl]; rfl, h2⟩
      · rw [if_neg h2] at hk
        rcases hSup k hk with ⟨id1, hs1, hk1⟩ | ⟨id1, ts1, hm1, t, ht, hk1⟩
        · left
          refine ⟨id1, ?_, hk1⟩
          rw [mget_mset]
          by_cases hin : id1 = nid
          · rw [if_pos hin]; rfl
          · rw [if_neg hin]; exact hs1
        · right
          have hid1 : id1 < nid := hdom id1 (by rw [hm1]; rfl)
          have hne : ¬ id1 = nid := by omega
          refine ⟨id1, ts1, ?_, t, ht, hk1⟩
          rw [mget_mset, if_neg hne]
          exact hm1

theorem metaInv_updstep {metaT : Tree} {m : Model} {nid id0 : Nat} {oldts ts : List Term}
    (hMI : MetaInv metaT m)
    (hdomt : ∀ id, (mget m id).isSome ↔ id < nid)
    (hgoodm : ∀ id l, mget m id = some l → goodTerms l)
    (hnid : nid ≤ 2 ^ 64)
    (hid0 : id0 < nid)
    (hold : mget m id0 = some oldts)
    (hg : goodTerms ts) :
    MetaInv
      ((ts.map (fun t => t.flatten_with_id id0)).foldl (fun acc term => tinsert acc term [])
        ((oldts.map (fun t => t.flatten_with_id id0)).foldl (fun acc term => tremove acc term)
          (tinsert metaT (TERMS_PREFIX ++ u64_to_bytes id0)
            (encList (ts.map (fun t => t.flatten_with_id id0))))))
      (mset m id0 ts) := by
  obtain ⟨hTL, hMK, hSup⟩ := hMI
  have hgold : goodTerms oldts := hgoodm _ _ hold
  have hid64 : id0 < 2 ^ 64 := lt_of_lt_of_le hid0 hnid
  have hE : ∀ k', tget
      ((ts.map (fun t => t.flatten_with_id id0)).foldl (fun acc term => tinsert acc term [])
        ((oldts.map (fun t => t.flatten_with_id id0)).foldl (fun acc term => tremove acc term)
          (tinsert metaT (TERMS_PREFIX ++ u64_to_bytes id0)
            (encList (ts.map (fun t => t.flatten_with_id id0)))))) k' =
      if k' ∈ ts.map (fun t => t.flatten_with_id id0) then some []
      else if k' ∈ oldts.map (fun t => t.flatten_with_id id0) then none
      else if k' = TERMS_PREFIX ++ u64_to_bytes id0 then
        some (encList (ts.map (fun t => t.flatten_with_id id0)))
      else tget metaT k' := by
    intro k'
    rw [tget_foldl_tinsert, tget_foldl_tremove, tget_tinsert]
  have hAnew : ∀ id'', TERMS_PREFIX ++ u64_to_bytes id'' ∉ ts.map (fun t => t.flatten_with_id id0) := by
    intro id'' hmem
    obtain ⟨t, ht, hkey⟩ := List.mem_map.mp hmem
    exact flatten_ne_termsKey (hg.2 t ht).1 hkey
  have hAold : ∀ id'', TERMS_PREFIX ++ u64_to_bytes id'' ∉ oldts.map (fun t => t.flatten_with_id id0) := by
    intro id'' hmem
    obtain ⟨t, ht, hkey⟩ := List.mem_map.mp hmem
    exact flatten_ne_termsKey (hgold.2 t ht).1 hkey
  refine ⟨?_, ?_, ?_⟩
  · intro id ts' hmg
    rw [mget_mset] at hmg
    by_cases hid : id = id0
    · subst hid
      rw [if_pos rfl] at hmg
      obtain rfl : ts = ts' := Option.some.inj hmg
      rw [hE, if_neg (hAnew id), if_neg (hAold id), if_pos rfl]
    · rw [if_neg hid] at hmg
      have hidlt : id < nid := (hdomt id).mp (by rw [hmg]; rfl)
      have hidl64 : id < 2 ^ 64 := lt_of_lt_of_le hidlt hnid
      rw [hE, if_neg (hAnew id), if_neg (hAold id),
        if_neg (fun heq => hid (termsKey_inj hidl64 hid64 heq))]
      exact hTL id ts' hmg
  · intro id ts' hmg t ht
    rw [mget_mset] at hmg
    by_cases hid : id = id0
    · subst hid
      rw [if_pos rfl] at hmg
      obtain rfl : ts = ts' := Option.some.inj hmg
      rw [hE, if_pos (List.mem_map.mpr ⟨t, ht, rfl⟩)]
    · rw [if_neg hid] at hmg
      have hidlt : id < nid := (hdomt id).mp (by rw [hmg]; rfl)
      have hidl64 : id < 2 ^ 64 := lt_of_lt_of_le hidlt hnid
      have hmemn : t.flatten_with_id id ∉ ts.map (fun t => t.flatten_with_id id0) := by
        intro hmem
        obtain ⟨t', ht', hkey⟩ := List.mem_map.mp hmem
        exact hid ((flatten_inj_id hid64 hidl64 hkey).symm)
      have hmemo : t.flatten_with_id id ∉ oldts.map (fun t => t.flatten_with_id id0) := by
        intro hmem
        obtain ⟨t', ht', hkey⟩ := List.mem_map.mp hmem
        exact hid ((flatten_inj_id hid64 hidl64 hkey).symm)
      have hne : t.flatten_with_id id ≠ TERMS_PREFIX ++ u64_to_bytes id0 :=
        flatten_ne_termsKey ((hgoodm id ts' hmg).2 t ht).1
      rw [hE, if_neg hmemn, if_neg hmemo, if_neg hne]
      exact hMK id ts' hmg t ht
  · intro k hk
    rw [hE] at hk
    by_cases h1 : k ∈ ts.map (fun t => t.flatten_with_id id0)
    · obtain ⟨t, ht, rfl⟩ := List.mem_map.mp h1
      right
      exact ⟨id0, ts, by rw [mget_mset, if_pos rfl], t, ht, rfl⟩
    · rw [if_neg h1] at hk
      by_cases h2 : k ∈ oldts.map (fun t => t.flatten_with_id id0)
      · rw [if_pos h2] at hk
        simp at hk
      · rw [if_neg h2] at hk
        by_cases h3 : k = TERMS_PREFIX ++ u64_to_bytes id0
        · left
          exact ⟨id0, by rw [mget_mset, if_pos rfl]; rfl, h3⟩
        · rw [if_neg h3] at hk
          rcases hSup k hk with ⟨id1, hs1, hk1⟩ | ⟨id1, ts1, hm1, t, ht, hk1⟩
          · left
            refine ⟨id1, ?_, hk1⟩
            rw [mget_mset]
            by_cases hin : id1 = id0
            · rw [if_pos hin]; rfl
            · rw [if_neg hin]; exact hs1
          · right
            have hne1 : ¬ id1 = id0 := by
              intro heq
              subst heq
              obtain rfl : oldts = ts1 := Option.some.inj (hold.symm.trans hm1)
              exact h2 (hk1 ▸ List.mem_map.mpr ⟨t, ht, rfl⟩)
            refine ⟨id1, ts1, ?_, t, ht, hk1⟩
            rw [mget_mset, if_neg hne1]
            exact hm1

theorem metaInv_updateObj {T : Type} {c : Codec T} {metaT : Tree} {m : Model} {nid : Nat}
    {o : Object T} {metaT' : Tree}
    (hMI : MetaInv metaT m)
    (hdomt : ∀ id, (mget m id).isSome ↔ id < nid)
    (hgoodm : ∀ id l, mget m id = some l → goodTerms l)
    (hnid : nid ≤ 2 ^ 64)
    (hoid : o.id < nid)
    (hg : goodTerms (c.query_terms o.inner))
    (h : updateObj c metaT o = .ok metaT') :
    MetaInv metaT' (mset m o.id (c.query_terms o.inner)) := by
  obtain ⟨oldts, hold⟩ : ∃ l, mget m o.id = some l := by
    have hs := (hdomt o.id).mpr hoid
    cases hmg : mget m o.id with
    | none => rw [hmg] at hs; simp at hs
    | some l => exact ⟨l, rfl⟩
  have hgold : goodTerms oldts := hgoodm _ _ hold
  have hprev : tget metaT (TERMS_PREFIX ++ u64_to_bytes o.id) =
      some (encList (oldts.map (fun t => t.flatten_with_id o.id))) := hMI.1 _ _ hold
  have hdecL : decList (encList (oldts.map (fun t => t.flatten_with_id o.id))) =
      some (oldts.map (fun t => t.flatten_with_id o.id)) := by
    refine decList_encList ?_ ?_
    · rw [List.length_map]; exact hgold.1
    · intro x hx
      obtain ⟨t, ht, rfl⟩ := List.mem_map.mp hx
      rw [flatten_length]
      exact (hgold.2 t ht).2
  cases hser : c.ser o.inner with
  | none =>
    simp only [updateObj, hser] at h
    exact Except.noConfusion h
  | some si =>
    simp only [updateObj, hser, hprev, hdecL] at h
    obtain rfl := Except.ok.inj h
    exact metaInv_updstep ⟨hMI.1, hMI.2.1, hMI.2.2⟩ hdomt hgoodm hnid hoid hold hg

theorem metaInv_updateTx {T : Type} {c : Codec T} {nid : Nat} :
    ∀ (objs : List (Object T)) (metaT : Tree) (m : Model) (metaT' : Tree),
      MetaInv metaT m →
      (∀ id, (mget m id).isSome ↔ id < nid) →
      (∀ id l, mget m id = some l → goodTerms l) →
      nid ≤ 2 ^ 64 →
      (∀ o ∈ objs, o.id < nid ∧ goodTerms (c.query_terms o.inner)) →
      updateTx c metaT objs = .ok metaT' →
      MetaInv metaT' (objs.foldl (fun acc o => mset acc o.id (c.query_terms o.inner)) m) ∧
      (∀ id, (mget (objs.foldl (fun acc o => mset acc o.id (c.query_terms o.inner)) m) id).isSome
        ↔ id < nid) ∧
      (∀ id l, mget (objs.foldl (fun acc o => mset acc o.id (c.query_terms o.inner)) m) id = some l
        → goodTerms l) := by
  intro objs
  induction objs with
  | nil =>
    intro metaT m metaT' hMI hdomt hgoodm hnid hobjs h
    simp only [updateTx] at h
    obtain rfl := Except.ok.inj h
    simpa only [List.foldl_nil] using And.intro hMI (And.intro hdomt hgoodm)
  | cons o rest ih =>
    intro metaT m metaT' hMI hdomt hgoodm hnid hobjs h
    cases hstep : updateObj c metaT o with
    | error e =>
      simp only [updateTx, hstep] at h
      exact Except.noConfusion h
    | ok metaT2 =>
      simp only [updateTx, hstep] at h
      have hone := metaInv_updateObj hMI hdomt hgoodm hnid
        (hobjs o (List.mem_cons_self o rest)).1 (hobjs o (List.mem_cons_self o rest)).2 hstep
      have hdomt2 : ∀ id, (mget (mset m o.id (c.query_terms o.inner)) id).isSome ↔ id < nid := by
        intro id
        rw [mget_mset]
        by_cases hid : id = o.id
        · subst hid
          rw [if_pos rfl]
          constructor
          · intro _; exact (hobjs o (List.mem_cons_self o rest)).1
          · intro _; rfl
        · rw [if_neg hid]; exact hdomt id
      have hgoodm2 : ∀ id l, mget (mset m o.id (c.query_terms o.inner)) id = some l →
          goodTerms l := by
        intro id l hml
        rw [mget_mset] at hml
        by_cases hid : id = o.id
        · rw [if_pos hid] at hml
          obtain rfl := Option.some.inj hml
          exact (hobjs o (List.mem_cons_self o rest)).2
        · rw [if_neg hid] at hml
          exact hgoodm id l hml
      have hrest := ih metaT2 (mset m o.id (c.query_terms o.inner)) metaT' hone hdomt2 hgoodm2
        hnid (fun o' ho' => hobjs o' (List.mem_cons_of_mem o ho')) h
      simpa only [List.foldl_cons] using hrest

theorem inv_create {T : Type} {c : Codec T} {s : StoreState} {m : Model} {r : T} {id : Nat}
    {s' : StoreState}
    (hinv : Inv s m) (hnid : s.next_id < 2 ^ 64) (hg : goodTerms (c.query_terms r))
    (h : create c s r = (.ok id, s')) :
    Inv s' (mset m id (c.query_terms r)) := by
  obtain ⟨hb, hdom, hgood, hMI⟩ := hinv
  cases hser : c.ser r with
  | none =>
    simp only [create, createTx, hser] at h
    exact Except.noConfusion (congrArg Prod.fst h)
  | some si =>
    simp only [create, createTx, hser, Prod.mk.injEq] at h
    obtain ⟨hid, hs'⟩ := h
    obtain rfl : s.next_id = id := Except.ok.inj hid
    subst hs'
    refine ⟨?_, ?_, ?_, ?_⟩
    · show s.next_id + 1 ≤ 2 ^ 64
      omega
    · intro id1
      show (mget (mset m s.next_id (c.query_terms r)) id1).isSome ↔ id1 < s.next_id + 1
      rw [mget_mset]
      by_cases hin : id1 = s.next_id
      · subst hin
        rw [if_pos rfl]
        simp
      · rw [if_neg hin]
        rw [hdom id1]
        constructor
        · intro hlt; omega
        · intro hlt
          rcases Nat.lt_succ_iff_lt_or_eq.mp hlt with h2 | h2
          · exact h2
          · exact absurd h2 hin
    · intro id1 l hml
      rw [mget_mset] at hml
      by_cases hin : id1 = s.next_id
      · rw [if_pos hin] at hml
        obtain rfl := Option.some.inj hml
        exact hg
      · rw [if_neg hin] at hml
        exact hgood id1 l hml
    · exact metaInv_create ⟨hMI.1, hMI.2.1, hMI.2.2⟩ (fun id1 hs => (hdom id1).mp hs) hgood
        hnid hg

theorem inv_update_multi {T : Type} {c : Codec T} {s : StoreState} {m : Model}
    {objs : List (Object T)} {s' : StoreState}
    (hinv : Inv s m)
    (hobjs : ∀ o ∈ objs, o.id < s.next_id ∧ goodTerms (c.query_terms o.inner))
    (h : update_multi c s objs = (.ok (), s')) :
    Inv s' (objs.foldl (fun acc o => mset acc o.id (c.query_terms o.inner)) m) := by
  obtain ⟨hb, hdom, hgood, hMI⟩ := hinv
  cases htx : updateTx c s.meta objs with
  | error e =>
    simp only [update_multi, htx] at h
    exact Except.noConfusion (congrArg Prod.fst h)
  | ok mT =>
    simp only [update_multi, htx, Prod.mk.injEq] at h
    obtain ⟨-, hs'⟩ := h
    subst hs'
    obtain ⟨hMI', hdom', hgood'⟩ := metaInv_updateTx objs s.meta m mT
      ⟨hMI.1, hMI.2.1, hMI.2.2⟩ hdom hgood hb hobjs htx
    exact ⟨hb, hdom', hgood', hMI'⟩

theorem exec_inv {T : Type} {c : Codec T} {s : StoreState} {m : Model} (h : Exec c s m) :
    Inv s m := by
  induction h with
  | init =>
    refine ⟨Nat.zero_le _, ?_, ?_, ?_, ?_, ?_⟩
    · intro id; simp [mget, emptyStore]
    · intro id ts hm; simp [mget] at hm
    · intro id ts hm; simp [mget] at hm
    · intro id ts hm; simp [mget] at hm
    · intro k hk; simp [tget, emptyStore] at hk
  | step_create hex hnid hg hcr ih => exact inv_create ih hnid hg hcr
  | step_update hex hobjs hupd ih => exact inv_update_multi ih hobjs hupd

/-! Ordered-scan lemmas. -/

theorem allGo_ok {T : Type} {c : Codec T} :
    ∀ {l : Tree},
      (∀ e ∈ l, ∃ id, id < 2 ^ 64 ∧ e.1 = u64_to_bytes id ∧ ∃ r, c.deser e.2 = some r) →
      ∃ objs, allGo c l = .ok objs ∧
        List.Forall₂ (fun (e : Bytes × Bytes) (o : Object T) =>
          e.1 = u64_to_bytes o.id ∧ o.id < 2 ^ 64 ∧ c.deser e.2 = some o.inner) l objs := by
  intro l
  induction l with
  | nil => intro _; exact ⟨[], rfl, List.Forall₂.nil⟩
  | cons e rest ih =>
    intro h
    obtain ⟨id, hid, hk, r, hr⟩ := h e (List.mem_cons_self e rest)
    obtain ⟨objs, hgo, hf⟩ := ih (fun e' he' => h e' (List.mem_cons_of_mem e he'))
    obtain ⟨k, v⟩ := e
    dsimp only at hk hr
    refine ⟨⟨id, r⟩ :: objs, ?_, ?_⟩
    · simp only [allGo, hk, bytes_to_u64_u64_to_bytes id hid, hr, hgo]
    · exact List.Forall₂.cons ⟨hk, hid, hr⟩ hf

/-! Resolution lemmas for query results. -/

theorem find_resolveId {T : Type} {c : Codec T} {s : StoreState} {id : Nat}
    (h : ∀ vb, tget s.tree (u64_to_bytes id) = some vb → (c.deser vb).isSome) :
    find c s id = .ok (resolveId c s id) := by
  cases htg : tget s.tree (u64_to_bytes id) with
  | none => simp only [find, resolveId, htg]
  | some vb =>
    cases hd : c.deser vb with
    | none =>
      have hsome := h vb htg
      rw [hd] at hsome
      simp at hsome
    | some inner => simp [find, resolveId, htg, hd]

theorem results_all_ok {T : Type} {c : Codec T} {s : StoreState} :
    ∀ ids : List Nat,
      (∀ id ∈ ids, ∀ vb, tget s.tree (u64_to_bytes id) = some vb → (c.deser vb).isSome) →
      results_all c s ids = .ok (ids.filterMap (fun id => resolveId c s id)) := by
  intro ids
  induction ids with
  | nil => intro _; rfl
  | cons id rest ih =>
    intro h
    have hfind := find_resolveId (h id (List.mem_cons_self id rest))
    have hrest := ih (fun id' h' => h id' (List.mem_cons_of_mem id h'))
    cases hres : resolveId c s id with
    | none =>
      rw [hres] at hfind
      simp only [results_all, hfind, List.filterMap_cons, hres]
      exact hrest
    | some obj =>
      rw [hres] at hfind
      simp only [results_all, hfind, hrest, List.filterMap_cons, hres]

theorem results_first_none {T : Type} {c : Codec T} {s : StoreState} {id : Nat}
    {rest : List Nat}
    (h : ∀ vb, tget s.tree (u64_to_bytes id) = some vb → (c.deser vb).isSome)
    (hres : resolveId c s id = none) :
    results_first c s (id :: rest) = .ok none := by
  have hfind := find_resolveId h
  rw [hres] at hfind
  simp only [results_first, hfind]

/-! Claim theorems. -/

/-- C1: the claim states that update rewrites the object's primary record so that a
subsequent find returns the record passed to update. The code computes the serialized
record inside update_multi but never writes it to the primary tree, so the primary
record stays at its pre-update value: create the false record, update it to true —
the update reports success, yet find still returns the false record. -/
theorem c1_update_leaves_primary_stale :
    (update_multi boolCodec exS1 [⟨0, true⟩]).1 = .ok () ∧
    find boolCodec exS2 0 = .ok (some ⟨0, false⟩) ∧
    some (⟨0, false⟩ : Object Bool) ≠ some ⟨0, true⟩ :=
  ⟨rfl, rfl, by decide⟩

/-- C2 (amended): in any disciplined execution (sane terms, updates only of already
assigned identifiers), for any query whose field and value bytes do not concatenate
to the reserved term-list key head, matching_ids holds exactly the identifiers whose
most recently written record's query_terms contains a pair whose field and value
concatenate, as bytes, to the query's own concatenation. -/
theorem c2_matching_ids_exact {T : Type} {c : Codec T} {s : StoreState} {m : Model}
    {f v : Bytes} (hex : Exec c s m) (hq : f ++ v ≠ TERMS_PREFIX) (id0 : Nat) :
    id0 ∈ matching_ids s f v ↔
      ∃ ts, mget m id0 = some ts ∧ ∃ t ∈ ts, t.field ++ t.value = f ++ v :=
  matching_ids_inv (exec_inv hex) hq id0

/-- C2 counterexample: after one create of a record whose only term is (ab, c),
querying field a with value bc returns identifier 0, although no term of that record
is the pair (a, bc) — only the byte concatenations coincide, so the claimed exact
set equality fails. -/
theorem c2_counterexample :
    (create boolCodec emptyStore false).1 = .ok 0 ∧
    0 ∈ matching_ids exS1 [97] [98, 99] ∧
    ∀ t ∈ boolCodec.query_terms false, ¬(t.field = [97] ∧ t.value = [98, 99]) :=
  ⟨rfl, by decide, by decide⟩

/-- C2 witness: the amended theorem applied to the one-create execution. -/
theorem c2_witness : 0 ∈ matching_ids exS1 [97, 98] [99] := by
  have hex : Exec boolCodec exS1 (mset [] 0 (boolCodec.query_terms false)) :=
    Exec.step_create Exec.init (by decide) (by decide) rfl
  exact (c2_matching_ids_exact hex (by decide) 0).mpr
    ⟨boolCodec.query_terms false, rfl, ⟨[97, 98], [99]⟩, by decide, rfl⟩

/-- C3 (amended): in a disciplined execution, after a successful update of an assigned
identifier to a record that carries the (field, new value) term, carries no term whose
bytes concatenate to field plus old value, and whose old-value query is not the
reserved key head, the old-value query no longer contains the identifier and the
new-value query contains it. -/
theorem c3_update_moves_query {T : Type} {c : Codec T} {s : StoreState} {m : Model}
    {s' : StoreState} {id0 : Nat} {r' : T} {f vold vnew : Bytes}
    (hex : Exec c s m) (hid : id0 < s.next_id) (hg : goodTerms (c.query_terms r'))
    (hupd : update_multi c s [⟨id0, r'⟩] = (.ok (), s'))
    (hnew : ∃ t ∈ c.query_terms r', t.field = f ∧ t.value = vnew)
    (hold : ∀ t ∈ c.query_terms r', t.field ++ t.value ≠ f ++ vold)
    (hTP : f ++ vold ≠ TERMS_PREFIX) :
    id0 ∉ matching_ids s' f vold ∧ id0 ∈ matching_ids s' f vnew := by
  have hobjs : ∀ o ∈ [(⟨id0, r'⟩ : Object T)],
      o.id < s.next_id ∧ goodTerms (c.query_terms o.inner) := by
    intro o ho
    obtain rfl := List.mem_singleton.mp ho
    exact ⟨hid, hg⟩
  have hex' : Exec c s' (mset m id0 (c.query_terms r')) := by
    have hstep := Exec.step_update hex hobjs hupd
    simpa only [List.foldl_cons, List.foldl_nil] using hstep
  have hinv' := exec_inv hex'
  constructor
  · intro hmem
    obtain ⟨ts, hmg, t, ht, hfv⟩ := (matching_ids_inv hinv' hTP id0).mp hmem
    rw [mget_mset, if_pos rfl] at hmg
    obtain rfl := Option.some.inj hmg
    exact hold t ht hfv
  · obtain ⟨t, ht, hfld, hval⟩ := hnew
    have hTPnew : f ++ vnew ≠ TERMS_PREFIX := by
      have hgt := (hg.2 t ht).1
      rw [hfld, hval] at hgt
      exact hgt
    refine (matching_ids_inv hinv' hTPnew id0).mpr ⟨c.query_terms r', ?_, t, ht, ?_⟩
    · rw [mget_mset, if_pos rfl]
    · rw [hfld, hval]

/-- C3 counterexample: create a record whose only term is (ab, c), then successfully
update it to a record that changes field ab to value d but also carries the term
(a, bc); the old-value query StrEquals(ab, c) still contains the identifier, because
the new record's other term produces the same index key bytes. -/
theorem c3_counterexample :
    (update_multi boolCodec exS1 [⟨0, true⟩]).1 = .ok () ∧
    boolCodec.query_terms false = [⟨[97, 98], [99]⟩] ∧
    (∃ t ∈ boolCodec.query_terms true, t.field = [97, 98] ∧ t.value = [100]) ∧
    (∀ t ∈ boolCodec.query_terms true, ¬(t.field = [97, 98] ∧ t.value = [99])) ∧
    0 ∈ matching_ids exS2 [97, 98] [99] :=
  ⟨rfl, rfl, by decide, by decide, by decide⟩

/-- C3 witness: the amended theorem applied to a collision-free update that changes
field ab from value c to value d. -/
theorem c3_witness :
    0 ∉ matching_ids plS2 [97, 98] [99] ∧ 0 ∈ matching_ids plS2 [97, 98] [100] := by
  have hex : Exec plainCodec plS1 (mset [] 0 (plainCodec.query_terms false)) :=
    Exec.step_create Exec.init (by decide) (by decide) rfl
  refine c3_update_moves_query hex (by decide) (by decide)
    (rfl : update_multi plainCodec plS1 [⟨0, true⟩] = (.ok (), plS2))
    ?_ (by decide) (by decide)
  exact ⟨⟨[97, 98], [100]⟩, by decide, rfl, rfl⟩

/-- C4: for every record whose codec round trips, a successful create followed by find
of the returned identifier yields exactly that record under that identifier. -/
theorem c4_create_find_roundtrip {T : Type} {c : Codec T} {s : StoreState} {r : T}
    {id : Nat} {s' : StoreState}
    (hrt : ∀ bs, c.ser r = some bs → c.deser bs = some r)
    (h : create c s r = (.ok id, s')) :
    find c s' id = .ok (some ⟨id, r⟩) := by
  cases hser : c.ser r with
  | none =>
    simp only [create, createTx, hser] at h
    exact Except.noConfusion (congrArg Prod.fst h)
  | some si =>
    simp only [create, createTx, hser, Prod.mk.injEq] at h
    obtain ⟨hid, hs'⟩ := h
    obtain rfl : s.next_id = id := Except.ok.inj hid
    subst hs'
    have htg : tget (tinsert s.tree (u64_to_bytes s.next_id) si) (u64_to_bytes s.next_id)
        = some si := by
      rw [tget_tinsert, if_pos rfl]
    simp only [find, htg, hrt si hser]

/-- C4 witness: the round trip at the concrete false record. -/
theorem c4_witness : find boolCodec exS1 0 = .ok (some ⟨0, false⟩) := by
  refine c4_create_find_roundtrip ?_
    (rfl : create boolCodec emptyStore false = (.ok 0, exS1))
  intro bs h
  obtain rfl := Option.some.inj h
  rfl

/-- C5: if the create or update_multi transaction aborts, the primary and meta trees
are exactly as before the call (the identifier counter, drawn outside the
transaction, may advance on create). -/
theorem c5_failed_call_leaves_tables {T : Type} (c : Codec T) (s : StoreState) (r : T)
    (objs : List (Object T)) :
    (∀ e, (create c s r).1 = .error e →
      (create c s r).2.tree = s.tree ∧ (create c s r).2.meta = s.meta) ∧
    (∀ e, (update_multi c s objs).1 = .error e → (update_multi c s objs).2 = s) := by
  constructor
  · intro e he
    cases hc : createTx c s.tree s.meta s.next_id r with
    | error e2 => simp [create, hc]
    | ok pr =>
      obtain ⟨t2, m2⟩ := pr
      simp only [create, hc] at he
      exact Except.noConfusion he
  · intro e he
    cases ht : updateTx c s.meta objs with
    | error e2 => simp only [update_multi, ht]
    | ok mT =>
      simp only [update_multi, ht] at he
      exact Except.noConfusion he

/-- C5 witness: a create whose serializer fails leaves both trees unchanged, and a
two-object update_multi whose second object fails to serialize leaves the whole
store unchanged, discarding the first object's already computed effects. -/
theorem c5_witness :
    (create failCodec flS1 true).2.tree = flS1.tree ∧
    (create failCodec flS1 true).2.meta = flS1.meta ∧
    (update_multi failCodec flS1 [⟨0, false⟩, ⟨1, true⟩]).2 = flS1 := by
  have h := c5_failed_call_leaves_tables failCodec flS1 true [⟨0, false⟩, ⟨1, true⟩]
  exact ⟨(h.1 .serialization rfl).1, (h.1 .serialization rfl).2, h.2 .serialization rfl⟩

/-- C6: index-key derivation is the pure concatenation of field bytes, value bytes
and the big-endian 8-byte identifier encoding: the encoding has length 8, all its
bytes are below 256, reading it back most-significant-first recovers the identifier,
and the byte decoder inverts it. -/
theorem c6_flatten_big_endian (t : Term) (id : Nat) (h : id < 2 ^ 64) :
    t.flatten_with_id id = t.field ++ t.value ++ u64_to_bytes id ∧
    (u64_to_bytes id).length = 8 ∧
    (∀ b ∈ u64_to_bytes id, b < 256) ∧
    (u64_to_bytes id).foldl (fun acc b => acc * 256 + b) 0 = id ∧
    bytes_to_u64 (u64_to_bytes id) = some id :=
  ⟨rfl, u64_to_bytes_length id, u64_to_bytes_lt id, u64_foldl id h,
    bytes_to_u64_u64_to_bytes id h⟩

/-- C6 witness: the derivation at the concrete term (f, b) and identifier 258. -/
theorem c6_witness :
    Term.flatten_with_id ⟨[102], [98]⟩ 258 = [102] ++ [98] ++ u64_to_bytes 258 ∧
    (u64_to_bytes 258).length = 8 ∧
    (∀ b ∈ u64_to_bytes 258, b < 256) ∧
    (u64_to_bytes 258).foldl (fun acc b => acc * 256 + b) 0 = 258 ∧
    bytes_to_u64 (u64_to_bytes 258) = some 258 :=
  c6_flatten_big_endian ⟨[102], [98]⟩ 258 (by norm_num)

/-- C7: when every primary entry has an 8-byte big-endian key and a decodable value,
all() succeeds, its output lists the identifiers in ascending numeric order, and it
contains exactly the decoded objects of the primary table. -/
theorem c7_all_ordered {T : Type} {c : Codec T} {s : StoreState}
    (h : ∀ e ∈ s.tree, ∃ id, id < 2 ^ 64 ∧ e.1 = u64_to_bytes id ∧ ∃ r, c.deser e.2 = some r) :
    ∃ objs, all c s = .ok objs ∧
      List.Pairwise (fun a b : Object T => a.id ≤ b.id) objs ∧
      ∀ id r, id < 2 ^ 64 →
        ((⟨id, r⟩ : Object T) ∈ objs ↔
          ∃ vb, (u64_to_bytes id, vb) ∈ s.tree ∧ c.deser vb = some r) := by
  have hperm := perm_sortTree s.tree
  have hsorted := sorted_sortTree s.tree
  obtain ⟨objs, hgo, hf⟩ := allGo_ok (fun e he => h e (hperm.subset he))
  refine ⟨objs, hgo, ?_, ?_⟩
  · refine forall2_pairwise ?_ hf hsorted
    intro a b x y hax hby hq
    obtain ⟨hk1, hx1, -⟩ := hax
    obtain ⟨hk2, hx2, -⟩ := hby
    rw [hk1, hk2] at hq
    exact keyLe_u64 hx1 hx2 hq
  · intro id r hid
    constructor
    · intro ho
      obtain ⟨e, he, hrel⟩ := forall2_mem_right hf ho
      obtain ⟨k, v⟩ := e
      obtain ⟨hk, -, hd⟩ := hrel
      dsimp only at hk hd
      refine ⟨v, ?_, hd⟩
      rw [← hk]
      exact mem_sortTree.mp he
    · rintro ⟨vb, hmem, hd⟩
      obtain ⟨o, ho, hrel⟩ := forall2_mem_left hf (mem_sortTree.mpr hmem)
      obtain ⟨oid, oin⟩ := o
      obtain ⟨hk, hx, hdo⟩ := hrel
      dsimp only at hk hx hdo
      obtain rfl : id = oid := u64_to_bytes_inj hid hx hk
      obtain rfl : r = oin := Option.some.inj (hd.symm.trans hdo)
      exact ho

/-- C7 witness: the ordered scan over a hand-built table listed out of key order. -/
theorem c7_witness :
    ∃ objs, all boolCodec ordState = .ok objs ∧
      List.Pairwise (fun a b : Object Bool => a.id ≤ b.id) objs ∧
      ∀ id r, id < 2 ^ 64 →
        ((⟨id, r⟩ : Object Bool) ∈ objs ↔
          ∃ vb, (u64_to_bytes id, vb) ∈ ordState.tree ∧ boolCodec.deser vb = some r) := by
  refine c7_all_ordered ?_
  intro e he
  have he2 : e ∈ [(u64_to_bytes 5, [1]), (u64_to_bytes 2, [0])] := he
  rcases List.mem_cons.mp he2 with rfl | he3
  · exact ⟨5, by norm_num, rfl, true, rfl⟩
  rcases List.mem_cons.mp he3 with rfl | he4
  · exact ⟨2, by norm_num, rfl, false, rfl⟩
  · cases he4

/-- C8: find of an identifier with no primary entry returns Ok(None), not an error. -/
theorem c8_find_absent_ok_none {T : Type} (c : Codec T) (s : StoreState) (id : Nat)
    (h : tget s.tree (u64_to_bytes id) = none) : find c s id = .ok none := by
  simp only [find, h]

/-- C8 witness: a lookup in the empty store. -/
theorem c8_witness : find boolCodec emptyStore 3 = .ok none :=
  c8_find_absent_ok_none boolCodec emptyStore 3 rfl

/-- C9: when no matched identifier has an undecodable record, Results.all returns
exactly the objects of the identifiers that still resolve, silently skipping the
rest, and Results.first returns Ok(None) when its chosen identifier does not
resolve. -/
theorem c9_results_skip_missing {T : Type} (c : Codec T) (s : StoreState) (ids : List Nat)
    (h : ∀ id ∈ ids, ∀ vb, tget s.tree (u64_to_bytes id) = some vb → (c.deser vb).isSome) :
    results_all c s ids = .ok (ids.filterMap (fun id => resolveId c s id)) ∧
    ∀ id rest, ids = id :: rest → resolveId c s id = none →
      results_first c s ids = .ok none := by
  constructor
  · exact results_all_ok ids h
  · intro id rest hids hres
    subst hids
    exact results_first_none (h id (List.mem_cons_self id rest)) hres

/-- C9 witness: the matched set 7, 0 over a store holding only identifier 0:
all() skips 7 and returns the one object, first() on chosen identifier 7 is
Ok(None). -/
theorem c9_witness :
    results_all boolCodec exS1 [7, 0] = .ok [⟨0, false⟩] ∧
    results_first boolCodec exS1 [7, 0] = .ok none := by
  have hh : ∀ id ∈ [7, 0], ∀ vb, tget exS1.tree (u64_to_bytes id) = some vb →
      (boolCodec.deser vb).isSome := by
    intro id hid vb hvb
    rcases List.mem_cons.mp hid with rfl | hid2
    · have hnone : tget exS1.tree (u64_to_bytes 7) = none := by decide
      rw [hnone] at hvb
      exact Option.noConfusion hvb
    rcases List.mem_cons.mp hid2 with rfl | hid3
    · have hz : tget exS1.tree (u64_to_bytes 0) = some [0] := by decide
      rw [hz] at hvb
      obtain rfl := Option.some.inj hvb
      decide
    · cases hid3
  have h := c9_results_skip_missing boolCodec exS1 [7, 0] hh
  constructor
  · rw [h.1]
    rfl
  · exact h.2 7 [0] rfl (by decide)

/-- C10: matching_ids admits an identifier for a scanned key exactly when the key
extends the query prefix by a remainder that decodes as an identifier, and the
decoder succeeds precisely on remainders of length exactly 8 — any key sharing the
prefix with a remainder of any other length is silently excluded. -/
theorem c10_matching_ids_remainder (s : StoreState) (f v : Bytes) (id0 : Nat) :
    (id0 ∈ matching_ids s f v ↔
      ∃ k, (tget s.meta k).isSome ∧ (f ++ v).isPrefixOf k = true ∧
        (k.drop (f ++ v).length).length = 8 ∧
        bytes_to_u64 (k.drop (f ++ v).length) = some id0) ∧
    ∀ bs : Bytes, (bytes_to_u64 bs).isSome ↔ bs.length = 8 := by
  constructor
  · rw [mem_matching_ids]
    constructor
    · rintro ⟨k, ha, hb, hc⟩
      exact ⟨k, ha, hb, bytes_to_u64_length hc, hc⟩
    · rintro ⟨k, ha, hb, -, hc⟩
      exact ⟨k, ha, hb, hc⟩
  · intro bs
    exact bytes_to_u64_isSome

/-- C10 witness: the characterization applied at a concrete store and query. -/
theorem c10_witness :
    (5 ∈ matching_ids exS1 [97] [98] ↔
      ∃ k, (tget exS1.meta k).isSome ∧ ([97] ++ [98]).isPrefixOf k = true ∧
        (k.drop ([97] ++ [98]).length).length = 8 ∧
        bytes_to_u64 (k.drop ([97] ++ [98]).length) = some 5) ∧
    ∀ bs : Bytes, (bytes_to_u64 bs).isSome ↔ bs.length = 8 :=
  c10_matching_ids_remainder exS1 [97] [98] 5

end House
